import Mathlib

/-!
Shallow embedding of the LLM response-extraction and fallback layer of the
review-dashboard service (`Task2/llm_service.py`, `Task2/app.py`,
`Task2/database.py`), together with proofs about the claims of its
specification.

Python strings are modelled as `String` / `List Char`; Python `json.loads`
is modelled by an executable strict-JSON parser (`jsonParse`); floating
point does not occur in the verified code paths (analytics averages are
modelled over `ℚ`).  All definitions are executable, so every theorem can
be evaluated on concrete inputs.
-/

/-- Python whitespace characters (the ASCII part of `str.isspace`, as used by
`str.strip()` and the regex class `\s`; the source only manipulates ASCII in
these positions). -/
def isPySpace (c : Char) : Bool :=
  c = ' ' || c = '\t' || c = '\n' || c = '\r' || c = '\x0b' || c = '\x0c'

/-- Python `s.strip()` on a list of characters: drop leading and trailing
whitespace. -/
def pyStripL (cs : List Char) : List Char :=
  List.rdropWhile isPySpace (List.dropWhile isPySpace cs)

/-- Python `s.strip()` on strings. -/
def pyStrip (s : String) : String :=
  String.mk (pyStripL s.data)

/-- The three canned recommendations substituted for a 4-5 star review when
fewer than three actions were extracted (`llm_service.py`, lines 229-234). -/
def positiveActions : List String :=
  ["Continue maintaining the high standards that earned this positive review",
   "Share this positive feedback with the team to boost morale",
   "Identify and replicate the successful elements mentioned"]

/-- The canned recommendations for a 1-2 star review (`llm_service.py`,
lines 235-240). -/
def negativeActions : List String :=
  ["Investigate the specific issues mentioned in this review immediately",
   "Follow up with the customer to address their concerns",
   "Implement corrective measures to prevent similar issues"]

/-- The canned recommendations for a 3 star review (`llm_service.py`,
lines 241-246). -/
def mixedActions : List String :=
  ["Analyze the mixed feedback to identify improvement areas",
   "Strengthen the positive aspects mentioned in the review",
   "Address the concerns raised to enhance customer satisfaction"]

/-- The string appended by the final `while len(actions) < 3` padding loop
(`llm_service.py`, line 251). -/
def fillerAction : String :=
  "Gather additional customer feedback for continuous improvement"

/-- The canonical sentiment values (`llm_service.py`, line 215). -/
def canonicalSentiments : List String := ["Positive", "Negative", "Mixed"]

/-- The templated fallback summary keyed on the user-rating band
(`llm_service.py`, lines 219-225). -/
def fallbackSummary (userRating : Int) : String :=
  if 4 ≤ userRating then
    s!"Customer had a positive {userRating}-star experience with the restaurant. They appreciated various aspects of their visit."
  else if userRating ≤ 2 then
    s!"Customer had a disappointing {userRating}-star experience. Several issues affected their satisfaction."
  else
    s!"Customer had a mixed {userRating}-star experience with both positive and negative aspects noted."

/-- The rating-banded canned action list substituted when fewer than three
actions were extracted (`llm_service.py`, lines 228-246). -/
def fallbackActions (userRating : Int) : List String :=
  if 4 ≤ userRating then positiveActions
  else if userRating ≤ 2 then negativeActions
  else mixedActions

/-- The `while len(actions) < 3: actions.append(...)` loop (`llm_service.py`,
lines 250-251), written with fuel 3: the loop body runs at most `3 - len`
times, so three iterations always reproduce it exactly. -/
def padActionsAux : Nat → List String → List String
  | 0, l => l
  | n + 1, l => if l.length < 3 then padActionsAux n (l ++ [fillerAction]) else l

/-- The padding loop applied with its (always sufficient) fuel. -/
def padActions (l : List String) : List String :=
  padActionsAux 3 l

/-- The normalized triple `(summary, actions, sentiment)` returned by
`generate_summary_and_actions`. -/
structure NormResult where
  summary : String
  actions : List String
  sentiment : String
deriving DecidableEq

/-- The validate-and-repair step of `generate_summary_and_actions`
(`llm_service.py`, lines 209-251), acting on the optional extracted fields
(the `result.get(...)` reads) and the user rating.  The extracted values are
typed as in the spec's `ExtractedFields` record (string summary / sentiment,
string-list actions); extracted values of any other runtime type divert the
source into its outer `except` fallback instead of reaching this code. -/
def pyNormalize (extSummary : Option String) (extActions : Option (List String))
    (extSentiment : Option String) (userRating : Int) : NormResult :=
  let summary := pyStrip (extSummary.getD "")
  let actions := extActions.getD []
  let sentiment := pyStrip (extSentiment.getD "Mixed")
  let sentiment :=
    if sentiment ∈ canonicalSentiments then sentiment
    else if 4 ≤ userRating then "Positive"
    else if userRating ≤ 2 then "Negative"
    else "Mixed"
  let summary :=
    if summary = "" ∨ summary.length < 20 then fallbackSummary userRating else summary
  let actions :=
    if actions = [] ∨ actions.length < 3 then fallbackActions userRating else actions
  let actions := actions.take 3
  let actions := padActions actions
  ⟨summary, actions, sentiment⟩

/-- Outcome of one attempt of the remote model call inside `call_llm`: the
response text, or the message of the exception the attempt raised. -/
inductive Attempt where
  | ok (text : String)
  | err (msg : String)
deriving DecidableEq

/-- Observable trace of one `call_llm` run: the returned string, the number
of model-call attempts made, and the total seconds slept between attempts. -/
structure LLMTrace where
  result : String
  attempts : Nat
  totalWait : Nat
deriving DecidableEq

/-- Python `s.startswith(p)` on character lists. -/
def listStartsWith : List Char → List Char → Bool
  | [], _ => true
  | _ :: _, [] => false
  | p :: ps, c :: cs => p = c && listStartsWith ps cs

/-- Python's substring test `pat in hay` on character lists. -/
def hasSub (pat : List Char) : List Char → Bool
  | [] => listStartsWith pat []
  | c :: cs => listStartsWith pat (c :: cs) || hasSub pat cs

/-- The rate-limit classification of `call_llm` (`llm_service.py`, lines
88-90): lowercase the exception text and look for the substrings "rate" or
"429".  (`str.lower` is modelled on ASCII via `Char.toLower`; the matched
patterns are ASCII.) -/
def isRateLimited (msg : String) : Bool :=
  let m := msg.data.map Char.toLower
  hasSub "rate".data m || hasSub "429".data m

/-- The sentinel returned when the retry loop of `call_llm` exhausts without
a successful attempt (`llm_service.py`, line 103). -/
def exhaustedMarker : String := "ERROR: Max retries exceeded"

/-- The retry loop of `call_llm` (`llm_service.py`, lines 78-103), as a
function of the per-attempt outcomes of the remote call.  `attempt` is the
current loop index and `remaining` the number of loop iterations left
(`maxRetries - attempt`); the trace records the returned string, the number
of attempts made, and the seconds slept (each `time.sleep(w)` adds `w` to
`totalWait`). -/
def callLLMGo (outcomes : Nat → Attempt) (maxRetries : Nat) :
    Nat → Nat → LLMTrace
  | attempt, 0 => ⟨exhaustedMarker, attempt, 0⟩
  | attempt, remaining + 1 =>
    match outcomes attempt with
    | .ok text => ⟨text, attempt + 1, 0⟩
    | .err msg =>
      if isRateLimited msg then
        let t := callLLMGo outcomes maxRetries (attempt + 1) remaining
        ⟨t.result, t.attempts, 2 ^ attempt * 2 + t.totalWait⟩
      else if attempt < maxRetries - 1 then
        let t := callLLMGo outcomes maxRetries (attempt + 1) remaining
        ⟨t.result, t.attempts, 2 + t.totalWait⟩
      else
        ⟨"ERROR: " ++ msg, attempt + 1, 0⟩

/-- The function `call_llm(review_text, prompt_func, max_retries)`, as a function of the
sequence of per-attempt outcomes of the remote call. -/
def callLLM (outcomes : Nat → Attempt) (maxRetries : Nat) : LLMTrace :=
  callLLMGo outcomes maxRetries 0 maxRetries

/-- Model of a parsed Python JSON value (the result of `json.loads`).
Numbers with a fraction or exponent part (Python floats) are kept as their
literal source text in `jfloat`; objects are Python dicts, modelled as
insertion-ordered association lists with last-value-wins insertion. -/
inductive JsonVal where
  | jnull
  | jbool (b : Bool)
  | jint (n : Int)
  | jfloat (raw : String)
  | jstr (s : String)
  | jarr (elems : List JsonVal)
  | jobj (fields : List (String × JsonVal))

/-- Python dict insertion `d[k] = v`: replace the value at an existing key
in place, else append at the end. -/
def objInsert (fs : List (String × JsonVal)) (k : String) (v : JsonVal) :
    List (String × JsonVal) :=
  match fs with
  | [] => [(k, v)]
  | (k', v') :: rest =>
    if k' = k then (k', v) :: rest else (k', v') :: objInsert rest k v

/-- The whitespace accepted by `json.loads` between tokens. -/
def isJsonWs (c : Char) : Bool :=
  c = ' ' || c = '\t' || c = '\n' || c = '\r'

/-- Hexadecimal digit value. -/
def hexVal (c : Char) : Option Nat :=
  if '0' ≤ c ∧ c ≤ '9' then some (c.toNat - 48)
  else if 'a' ≤ c ∧ c ≤ 'f' then some (c.toNat - 87)
  else if 'A' ≤ c ∧ c ≤ 'F' then some (c.toNat - 55)
  else none

/-- The single-character string escapes of JSON. -/
def escChar : Char → Option Char
  | '"' => some '"'
  | '\\' => some '\\'
  | '/' => some '/'
  | 'b' => some '\x08'
  | 'f' => some '\x0c'
  | 'n' => some '\n'
  | 'r' => some '\r'
  | 't' => some '\t'
  | _ => none

/-- Parse the body of a JSON string after the opening quote, returning the
decoded characters and the input following the closing quote.  Unescaped
control characters are rejected, as in strict `json.loads`. -/
def parseStringBody : List Char → Option (List Char × List Char)
  | [] => none
  | '"' :: rest => some ([], rest)
  | '\\' :: 'u' :: h1 :: h2 :: h3 :: h4 :: rest => do
    let d1 ← hexVal h1
    let d2 ← hexVal h2
    let d3 ← hexVal h3
    let d4 ← hexVal h4
    let (s, r) ← parseStringBody rest
    some (Char.ofNat (((d1 * 16 + d2) * 16 + d3) * 16 + d4) :: s, r)
  | '\\' :: e :: rest => do
    let c ← escChar e
    let (s, r) ← parseStringBody rest
    some (c :: s, r)
  | c :: rest =>
    if c.toNat < 32 then none
    else do
      let (s, r) ← parseStringBody rest
      some (c :: s, r)

/-- Greedy digit prefix. -/
def takeDigits (cs : List Char) : List Char × List Char :=
  (cs.takeWhile Char.isDigit, cs.dropWhile Char.isDigit)

/-- Decimal value of a digit string. -/
def digitsToNat (ds : List Char) : Nat :=
  ds.foldl (fun a c => a * 10 + (c.toNat - 48)) 0

/-- Optional fraction part `\.\d+` of the json-module number regex; returns
the consumed text and remaining input, or `none` when the regex match ends
before the dot. -/
def fracPart (cs : List Char) : Option (List Char × List Char) :=
  match cs with
  | '.' :: rest =>
    let (ds, rest') := takeDigits rest
    if ds = [] then none else some ('.' :: ds, rest')
  | _ => none

/-- Optional exponent part `[eE][+-]?\d+` of the number regex. -/
def expPart (cs : List Char) : Option (List Char × List Char) :=
  match cs with
  | e :: rest =>
    if e = 'e' ∨ e = 'E' then
      match rest with
      | s :: rest' =>
        if s = '+' ∨ s = '-' then
          let (ds, rest'') := takeDigits rest'
          if ds = [] then none else some (e :: s :: ds, rest'')
        else
          let (ds, rest'') := takeDigits rest
          if ds = [] then none else some (e :: ds, rest'')
      | [] => none
    else none
  | [] => none

/-- Finish a number after its integer digits: an integer-only literal
becomes a Python int (`jint`); a literal with fraction or exponent part
becomes a float, kept as its literal text (`jfloat`). -/
def finishNumber (negChars intDigits rest : List Char) :
    Option (JsonVal × List Char) :=
  let (fracChars, rest1) := match fracPart rest with
    | some p => p
    | none => ([], rest)
  let (expChars, rest2) := match expPart rest1 with
    | some p => p
    | none => ([], rest1)
  if fracChars = [] ∧ expChars = [] then
    let n : Int := digitsToNat intDigits
    some (if negChars = ([] : List Char) then JsonVal.jint n else JsonVal.jint (-n), rest)
  else
    some (JsonVal.jfloat (String.mk (negChars ++ intDigits ++ fracChars ++ expChars)), rest2)

/-- Parse a JSON number following the json module's regex
`(-?(0|[1-9]\d+*))(\.\d+)?([eE][+-]?\d+)?` (a leading zero is not followed
by further integer digits). -/
def parseNumber (cs : List Char) : Option (JsonVal × List Char) :=
  let (negChars, cs1) := match cs with
    | '-' :: rest => (['-'], rest)
    | _ => (([] : List Char), cs)
  match cs1 with
  | c :: rest =>
    if c = '0' then finishNumber negChars ['0'] rest
    else if c.isDigit then
      let (ds, rest') := takeDigits rest
      finishNumber negChars (c :: ds) rest'
    else none
  | [] => none

mutual

/-- Parse one JSON value after optional leading whitespace (the recursive
descent inside `json.loads`); `fuel` bounds the recursion depth and always
suffices when initialised to the input length plus one. -/
def parseVal : Nat → List Char → Option (JsonVal × List Char)
  | 0, _ => none
  | fuel + 1, cs =>
    match List.dropWhile isJsonWs cs with
    | '{' :: rest =>
      (match List.dropWhile isJsonWs rest with
       | '}' :: rest' => some (.jobj [], rest')
       | rest' => parseMembers fuel rest' [])
    | '[' :: rest =>
      (match List.dropWhile isJsonWs rest with
       | ']' :: rest' => some (.jarr [], rest')
       | rest' => parseElems fuel rest' [])
    | '"' :: rest => (parseStringBody rest).map fun p => (.jstr (String.mk p.1), p.2)
    | 't' :: 'r' :: 'u' :: 'e' :: rest => some (.jbool true, rest)
    | 'f' :: 'a' :: 'l' :: 's' :: 'e' :: rest => some (.jbool false, rest)
    | 'n' :: 'u' :: 'l' :: 'l' :: rest => some (.jnull, rest)
    | rest => parseNumber rest

/-- Parse the members of a JSON object after its opening brace (an immediate
closing brace having been ruled out), accumulating into a Python dict. -/
def parseMembers : Nat → List Char → List (String × JsonVal) →
    Option (JsonVal × List Char)
  | 0, _, _ => none
  | fuel + 1, cs, acc =>
    match List.dropWhile isJsonWs cs with
    | '"' :: rest => do
      let (k, r1) ← parseStringBody rest
      match List.dropWhile isJsonWs r1 with
      | ':' :: r2 => do
        let (v, r3) ← parseVal fuel r2
        match List.dropWhile isJsonWs r3 with
        | ',' :: r4 => parseMembers fuel r4 (objInsert acc (String.mk k) v)
        | '}' :: r4 => some (.jobj (objInsert acc (String.mk k) v), r4)
        | _ => none
      | _ => none
    | _ => none

/-- Parse the elements of a JSON array after its opening bracket (an
immediate closing bracket having been ruled out). -/
def parseElems : Nat → List Char → List JsonVal → Option (JsonVal × List Char)
  | 0, _, _ => none
  | fuel + 1, cs, acc => do
    let (v, r1) ← parseVal fuel cs
    match List.dropWhile isJsonWs r1 with
    | ',' :: r2 => parseElems fuel r2 (acc ++ [v])
    | ']' :: r2 => some (.jarr (acc ++ [v]), r2)
    | _ => none

end

/-- Model of strict `json.loads`: parse one value with sufficient fuel and
require that only whitespace remains. -/
def jsonParse (cs : List Char) : Option JsonVal :=
  match parseVal (cs.length + 1) cs with
  | some (v, rest) => if List.dropWhile isJsonWs rest = [] then some v else none
  | none => none

/-- Python `s.find(c)`: index of the first occurrence, or -1. -/
def pyFind (cs : List Char) (c : Char) : Int :=
  match List.findIdx? (fun x => x = c) cs with
  | some i => (i : Int)
  | none => -1

/-- Python `s.rfind(c)`: index of the last occurrence, or -1. -/
def pyRFind (cs : List Char) (c : Char) : Int :=
  match List.findIdx? (fun x => x = c) cs.reverse with
  | some i => (cs.length : Int) - 1 - (i : Int)
  | none => -1

/-- Python slice `s[a:b]` for the nonnegative in-range indices produced by
the extractor. -/
def pySlice (cs : List Char) (a b : Int) : List Char :=
  (cs.drop a.toNat).take (b.toNat - a.toNat)

/-- The backquote character. -/
def backquote : Char := Char.ofNat 96

/-- The pattern removed by the `response_text.replace(..., '')` call on line
112 of `llm_service.py`: the source literal is a run of six backquotes. -/
def fenceRun : List Char :=
  [backquote, backquote, backquote, backquote, backquote, backquote]

/-- Python `text.replace(p, '')` for the six-backquote pattern `p`: remove
its non-overlapping occurrences, scanning left to right. -/
def removeFences : List Char → List Char
  | [] => []
  | a :: b :: c :: d :: e :: f :: rest =>
    if listStartsWith fenceRun (a :: b :: c :: d :: e :: f :: rest) then removeFences rest
    else a :: removeFences (b :: c :: d :: e :: f :: rest)
  | c :: rest => c :: removeFences rest

/-- Match a literal pattern as a prefix and return the remaining input. -/
def dropLit : List Char → List Char → Option (List Char)
  | [], cs => some cs
  | _ :: _, [] => none
  | p :: ps, c :: cs => if p = c then dropLit ps cs else none

/-- The quoted literal `"key"` at the head of each fallback regex. -/
def litKey (k : String) : List Char := '"' :: k.data ++ ['"']

/-- Model of `re.search` for a pattern made of a fixed literal followed by a tail
matcher: scan left to right and return the first position where both
succeed. -/
def reSearch {α : Type} (pat : List Char) (tl : List Char → Option α) :
    List Char → Option α
  | [] => none
  | c :: cs =>
    match dropLit pat (c :: cs) with
    | some rest =>
      match tl rest with
      | some v => some v
      | none => reSearch pat tl cs
    | none => reSearch pat tl cs

/-- Tail matcher for `\s*:\s*(\d+)` (the predicted-stars fallback
pattern). -/
def numTail (cs : List Char) : Option Nat :=
  match List.dropWhile isPySpace cs with
  | ':' :: cs' =>
    let ds := List.takeWhile Char.isDigit (List.dropWhile isPySpace cs')
    if ds = [] then none else some (digitsToNat ds)
  | _ => none

/-- Tail matcher for the string-valued fallback patterns
`\s*:\s*"(.*?)"` with DOTALL: the lazy group captures everything up to the
first closing quote, which must exist. -/
def strTail (cs : List Char) : Option (List Char) :=
  match List.dropWhile isPySpace cs with
  | ':' :: cs' =>
    match List.dropWhile isPySpace cs' with
    | '"' :: cs'' =>
      (match List.dropWhile (fun c => !(c == '"')) cs'' with
       | '"' :: _ => some (List.takeWhile (fun c => !(c == '"')) cs'')
       | _ => none)
    | _ => none
  | _ => none

/-- Tail matcher for the actions pattern `\s*:\s*\[(.*?)\]`: lazily capture
up to the first closing bracket, which must exist. -/
def actionsTail (cs : List Char) : Option (List Char) :=
  match List.dropWhile isPySpace cs with
  | ':' :: cs' =>
    match List.dropWhile isPySpace cs' with
    | '[' :: cs'' =>
      (match List.dropWhile (fun c => !(c == ']')) cs'' with
       | ']' :: _ => some (List.takeWhile (fun c => !(c == ']')) cs'')
       | _ => none)
    | _ => none
  | _ => none

/-- Model of `re.findall('"(.*?)"', s)`: all non-overlapping lazily-quoted captures,
left to right.  The fuel (initialised to the input length) always
suffices. -/
def findQuotedAux : Nat → List Char → List (List Char)
  | 0, _ => []
  | fuel + 1, cs =>
    match cs with
    | [] => []
    | '"' :: cs' =>
      (match List.dropWhile (fun c => !(c == '"')) cs' with
       | '"' :: rest =>
         List.takeWhile (fun c => !(c == '"')) cs' :: findQuotedAux fuel rest
       | _ => [])
    | _ :: cs' => findQuotedAux fuel cs'

/-- The matcher `findQuotedAux` applied with its sufficient fuel. -/
def findQuoted (cs : List Char) : List (List Char) :=
  findQuotedAux cs.length cs

/-- The regex fallback of `extract_json_from_response` (`llm_service.py`,
lines 126-156): per-field extraction applied to the processed text, building
the result dict in source order (stars, explanation, summary, sentiment,
actions; the actions captures are truncated to 3). -/
def regexFallback (text : List Char) : JsonVal :=
  let r : List (String × JsonVal) := []
  let r := match reSearch (litKey "predicted_stars") numTail text with
    | some n => r ++ [("predicted_stars", JsonVal.jint (Int.ofNat n))]
    | none => r
  let r := match reSearch (litKey "explanation") strTail text with
    | some s => r ++ [("explanation", JsonVal.jstr (String.mk s))]
    | none => r
  let r := match reSearch (litKey "summary") strTail text with
    | some s => r ++ [("summary", JsonVal.jstr (String.mk s))]
    | none => r
  let r := match reSearch (litKey "sentiment") strTail text with
    | some s => r ++ [("sentiment", JsonVal.jstr (String.mk s))]
    | none => r
  let r := match reSearch (litKey "actions") actionsTail text with
    | some cap => r ++ [("actions", JsonVal.jarr
        (((findQuoted cap).take 3).map fun c => JsonVal.jstr (String.mk c)))]
    | none => r
  JsonVal.jobj r

/-- The failure-marker prefix tested on line 108 of `llm_service.py`. -/
def errorMarker : List Char := ['E', 'R', 'R', 'O', 'R']

/-- The preprocessing of the raw response on line 112: remove the
six-backquote pattern, then strip surrounding whitespace. -/
def processedText (response : List Char) : List Char :=
  pyStripL (removeFences response)

/-- The slice `text[start:end]` between the first opening brace and the last
closing brace of the processed text (lines 115-122). -/
def extractSlice (text : List Char) : List Char :=
  pySlice text (pyFind text '{') (pyRFind text '}' + 1)

/-- The function `extract_json_from_response` (`llm_service.py`, lines 106-156), as a
total function on the raw response text: short-circuit on empty or
ERROR-prefixed input, preprocess, locate the brace-delimited slice, attempt
a strict JSON parse of it, and otherwise run the regex fallback. -/
def extractJson (response : List Char) : JsonVal :=
  if response = [] ∨ listStartsWith errorMarker response = true then .jobj []
  else
    let text := processedText response
    let start := pyFind text '{'
    let e := pyRFind text '}' + 1
    if start = -1 ∨ e ≤ start then .jobj []
    else
      match jsonParse (extractSlice text) with
      | some data => data
      | none => regexFallback text

/-- Whether `cs` contains no brace character. -/
def braceFree (cs : List Char) : Bool :=
  cs.all (fun c => !(c == '{' || c == '}'))

/-- Python dict lookup `d[k]` (`none` models a raised `KeyError`); dicts
built by `objInsert` have unique keys, so position is irrelevant. -/
def dictGet (fs : List (String × JsonVal)) (k : String) : Option JsonVal :=
  match fs with
  | [] => none
  | (k', v) :: rest => if k' = k then some v else dictGet rest k

/-- Key lookup on a JSON value: dict access on an object, failure
otherwise. -/
def jsonGet (v : JsonVal) (k : String) : Option JsonVal :=
  match v with
  | .jobj fs => dictGet fs k
  | _ => none

/-- The success payload of `/api/user/submit`: the `AIResponse` fields
assembled on lines 99-107 of `Task2/app.py` (the server-assigned timestamp
is external).  The rating fields hold whatever JSON values the prediction
dict contained, as in the source. -/
structure AIResponseModel where
  predicted_stars : JsonVal
  explanation : JsonVal
  ai_summary : String
  recommended_actions : List String
  sentiment : String
  submission_id : String

/-- The endpoint handler `submit_review` (`Task2/app.py`, lines 67-113, and
`Task2/server/app.py`, lines 111-170 — identical modulo logging): given the
prediction dict produced by `predict_rating`, the normalized summary triple
of this submission, and the stored submission id, return either the success
payload or the HTTP-500 detail string produced by the `except` handler.
The subscript `prediction['predicted_stars']` raises `KeyError` when the
key is missing (modelled by `dictGet` returning `none`), which the handler
converts into the error response; likewise for `prediction['explanation']`. -/
def submitReview (prediction : JsonVal) (summaryResult : NormResult)
    (subId : String) : Except String AIResponseModel :=
  match prediction with
  | .jobj fs =>
    (match dictGet fs "predicted_stars" with
     | none => .error "Error processing submission: 'predicted_stars'"
     | some stars =>
       match dictGet fs "explanation" with
       | none => .error "Error processing submission: 'explanation'"
       | some expl =>
         .ok ⟨stars, expl, summaryResult.summary, summaryResult.actions,
           summaryResult.sentiment, subId⟩)
  | _ => .error "Error processing submission: prediction is not a JSON object"

/-- The columns of one stored submissions row that `get_analytics` reads
(`Task2/database.py`). -/
structure SubmissionRow where
  user_rating : Int
  ai_predicted_rating : Int
  sentiment : String
deriving DecidableEq

/-- Python `round(x, 2)`, modelled on exact rationals. -/
def round2 (x : ℚ) : ℚ := (Int.floor (x * 100 + 1 / 2) : ℚ) / 100

/-- Model of `value_counts().to_dict()`: each distinct value with its number of
occurrences (the dict is modelled as an association list; the pandas
presentation order is not modelled, no claim depends on it). -/
def valueCounts {α : Type} [DecidableEq α] (xs : List α) : List (α × Nat) :=
  xs.dedup.map (fun v => (v, xs.count v))

/-- Insertion step of `sort_index()` on integer-keyed counts. -/
def insertByKey (p : Int × Nat) : List (Int × Nat) → List (Int × Nat)
  | [] => [p]
  | q :: rest => if p.1 ≤ q.1 then p :: q :: rest else q :: insertByKey p rest

/-- Model of `sort_index()`: sort the count pairs by key ascending. -/
def sortByKey (l : List (Int × Nat)) : List (Int × Nat) :=
  l.foldr insertByKey []

/-- The analytics record assembled by `get_analytics` (`Task2/database.py`,
lines 76-97). -/
structure Analytics where
  total_submissions : Nat
  average_user_rating : ℚ
  average_predicted_rating : ℚ
  accuracy : ℚ
  sentiment_distribution : List (String × Nat)
  rating_distribution : List (Int × Nat)

/-- The function `get_analytics` (`Task2/database.py`, lines 76-97): an empty store
short-circuits to the zero record; a nonempty store yields the rounded
means, the exact-match accuracy percentage (denominator = store size, only
reached when it is nonzero), and the two distributions.  Pandas float
arithmetic is modelled over exact rationals. -/
def getAnalytics (rows : List SubmissionRow) : Analytics :=
  if rows.length = 0 then
    ⟨0, 0, 0, 0, [], []⟩
  else
    ⟨rows.length,
     round2 ((((rows.map (fun r => r.user_rating)).sum : Int) : ℚ) / rows.length),
     round2 ((((rows.map (fun r => r.ai_predicted_rating)).sum : Int) : ℚ) / rows.length),
     round2 ((((rows.filter (fun r => r.user_rating = r.ai_predicted_rating)).length : ℚ)
       / rows.length) * 100),
     valueCounts (rows.map (fun r => r.sentiment)),
     sortByKey (valueCounts (rows.map (fun r => r.user_rating)))⟩

theorem padActions_length_of_le (l : List String) (h : l.length ≤ 3) :
    (padActions l).length = 3 := by
  rcases l with _ | ⟨a, _ | ⟨b, _ | ⟨c, l⟩⟩⟩
  · simp [padActions, padActionsAux, fillerAction]
  · simp [padActions, padActionsAux, fillerAction]
  · simp [padActions, padActionsAux, fillerAction]
  · have hl : l.length = 0 := by
      simp only [List.length_cons] at h
      omega
    have : l = [] := List.length_eq_zero.mp hl
    subst this
    simp [padActions, padActionsAux]

theorem padActions_of_three (l : List String) (h : l.length = 3) :
    padActions l = l := by
  simp [padActions, padActionsAux, h]

/-- Claim C2: for every extracted actions list of any length (including an
absent one), the normalize step of `generate_summary_and_actions` returns an
actions list of length exactly 3. -/
theorem normalize_actions_length_three (extSummary : Option String)
    (extActions : Option (List String)) (extSentiment : Option String)
    (userRating : Int) :
    (pyNormalize extSummary extActions extSentiment userRating).actions.length = 3 := by
  have h : ∀ X : List String, (padActions (X.take 3)).length = 3 := by
    intro X
    apply padActions_length_of_le
    simp [List.length_take]
  simp only [pyNormalize]
  exact h _

theorem fallbackActions_length (userRating : Int) :
    (fallbackActions userRating).length = 3 := by
  unfold fallbackActions
  split
  · rfl
  · split <;> rfl

theorem padActions_take_fallback (userRating : Int) :
    padActions ((fallbackActions userRating).take 3) = fallbackActions userRating := by
  unfold fallbackActions
  split
  · rfl
  · split <;> rfl

/-- Claim C3, counterexample: with the extracted sentiment absent and user
rating 5, the claim predicts the rating-derived sentiment "Positive", but the
code's `result.get("sentiment", "Mixed")` default is already canonical, so
"Mixed" is returned regardless of the rating. -/
theorem normalize_sentiment_absent_cex :
    (pyNormalize none none none 5).sentiment = "Mixed" ∧
      ("Mixed" : String) ≠ "Positive" := by
  constructor
  · rfl
  · decide

/-- Claim C3 (amended): the returned sentiment is always in the canonical
3-value set; when a sentiment was extracted but its whitespace-stripped value
is not canonical, the result is derived from the user rating (≥4 Positive,
≤2 Negative, else Mixed); when no sentiment was extracted, the default
"Mixed" is returned regardless of the rating. -/
theorem normalize_sentiment_spec (extSummary : Option String)
    (extActions : Option (List String)) (extSentiment : Option String)
    (userRating : Int) :
    (pyNormalize extSummary extActions extSentiment userRating).sentiment ∈ canonicalSentiments ∧
    (∀ v, extSentiment = some v → pyStrip v ∉ canonicalSentiments →
      (pyNormalize extSummary extActions extSentiment userRating).sentiment =
        if 4 ≤ userRating then "Positive"
        else if userRating ≤ 2 then "Negative"
        else "Mixed") ∧
    (extSentiment = none →
      (pyNormalize extSummary extActions extSentiment userRating).sentiment = "Mixed") := by
  refine ⟨?_, ?_, ?_⟩
  · simp only [pyNormalize]
    split
    · assumption
    · split
      · simp [canonicalSentiments]
      · split <;> simp [canonicalSentiments]
  · intro v hv hnc
    subst hv
    simp only [pyNormalize, Option.getD_some]
    rw [if_neg hnc]
  · intro hn
    subst hn
    rfl

/-- Witness for the amended C3 theorem at a concrete invalid sentiment. -/
theorem normalize_sentiment_spec_witness :
    (pyNormalize none none (some "Great!") 5).sentiment = "Positive" := by
  have h := (normalize_sentiment_spec none none (some "Great!") 5).2.1 "Great!" rfl (by decide)
  rw [if_pos (by norm_num : (4 : Int) ≤ 5)] at h
  exact h

/-- Claim C4, counterexample: with user rating 5 and extracted actions
`["a"]`, the claim predicts a 3-element list with "a" first, but the code
replaces the whole list with the canned positive-band recommendations, so
"a" is not the first element. -/
theorem normalize_actions_replace_cex :
    (pyNormalize none (some ["a"]) none 5).actions.head? =
      some "Continue maintaining the high standards that earned this positive review" ∧
      ("Continue maintaining the high standards that earned this positive review" : String) ≠ "a" := by
  constructor
  · rfl
  · decide

/-- Claim C4 (amended): when fewer than 3 actions are extracted (or none at
all), the normalize step discards them entirely and substitutes the
rating-banded canned list of exactly three recommendations — the
originally-extracted actions are not preserved; when 3 or more actions are
extracted, it keeps exactly the first 3 in their original order. -/
theorem normalize_actions_spec (extSummary : Option String)
    (extActions : Option (List String)) (extSentiment : Option String)
    (userRating : Int) :
    (∀ l, extActions = some l → 3 ≤ l.length →
      (pyNormalize extSummary extActions extSentiment userRating).actions = l.take 3) ∧
    (∀ l, extActions = some l → l.length < 3 →
      (pyNormalize extSummary extActions extSentiment userRating).actions =
        fallbackActions userRating) ∧
    (extActions = none →
      (pyNormalize extSummary extActions extSentiment userRating).actions =
        fallbackActions userRating) := by
  refine ⟨?_, ?_, ?_⟩
  · intro l hl h3
    subst hl
    simp only [pyNormalize, Option.getD_some]
    have hne : ¬(l = [] ∨ l.length < 3) := by
      rintro (rfl | hlt)
      · simp at h3
      · omega
    rw [if_neg hne]
    exact padActions_of_three _ (by simp [List.length_take]; omega)
  · intro l hl h3
    subst hl
    simp only [pyNormalize, Option.getD_some]
    rw [if_pos (Or.inr h3)]
    exact padActions_take_fallback userRating
  · intro hn
    subst hn
    simp only [pyNormalize, Option.getD_none]
    rw [if_pos (Or.inl trivial)]
    exact padActions_take_fallback userRating

/-- Witness for the amended C4 theorem at a concrete 4-element input. -/
theorem normalize_actions_spec_witness :
    (pyNormalize none (some ["a", "b", "c", "d"]) none 3).actions = ["a", "b", "c"] := by
  have h := (normalize_actions_spec none (some ["a", "b", "c", "d"]) none 3).1
    ["a", "b", "c", "d"] rfl (by decide)
  simpa using h

/-- Claim C7: with maxRetries = 3 and every attempt failing with a
rate-limit-shaped error, exactly 3 model-call attempts are made, the backoff
waits performed before returning sum to at least 2 + 4 + 8 = 14 seconds, and
the call returns the exhausted failure marker instead of raising. -/
theorem call_llm_rate_limit_exhaustion (outcomes : Nat → Attempt)
    (h : ∀ i, i < 3 → ∃ m, outcomes i = .err m ∧ isRateLimited m = true) :
    (callLLM outcomes 3).attempts = 3 ∧
    14 ≤ (callLLM outcomes 3).totalWait ∧
    (callLLM outcomes 3).result = exhaustedMarker := by
  obtain ⟨m0, h0, r0⟩ := h 0 (by omega)
  obtain ⟨m1, h1, r1⟩ := h 1 (by omega)
  obtain ⟨m2, h2, r2⟩ := h 2 (by omega)
  simp only [callLLM, callLLMGo, h0, h1, h2, r0, r1, r2, if_true]
  norm_num

/-- Witness for C7 at a concrete rate-limit-shaped error message. -/
theorem call_llm_rate_limit_exhaustion_witness :
    (callLLM (fun _ => .err "Rate limit reached, code 429") 3).attempts = 3 ∧
    14 ≤ (callLLM (fun _ => .err "Rate limit reached, code 429") 3).totalWait ∧
    (callLLM (fun _ => .err "Rate limit reached, code 429") 3).result = exhaustedMarker :=
  call_llm_rate_limit_exhaustion _
    (fun _ _ => ⟨"Rate limit reached, code 429", rfl, by decide⟩)

/-- Claim C8, counterexample: when every attempt (including the last one)
fails with a rate-limit-shaped error, the returned marker is the generic
"ERROR: Max retries exceeded", which does not carry the message of the last
error. -/
theorem call_llm_last_message_dropped_cex :
    (callLLM (fun _ => .err "throttled, http 429") 3).result =
      "ERROR: Max retries exceeded" ∧
    ("ERROR: Max retries exceeded" : String) ≠ "ERROR: " ++ "throttled, http 429" := by
  constructor
  · rfl
  · decide

theorem callLLMGo_all_err (outcomes : Nat → Attempt) (maxRetries : Nat) (m : String)
    (hlast : outcomes (maxRetries - 1) = .err m) :
    ∀ remaining attempt, attempt + remaining = maxRetries → 0 < remaining →
      (∀ i, attempt ≤ i → i < maxRetries → ∃ mm, outcomes i = .err mm) →
      (callLLMGo outcomes maxRetries attempt remaining).result =
        if isRateLimited m then exhaustedMarker else "ERROR: " ++ m := by
  intro remaining
  induction remaining with
  | zero => omega
  | succ r ih =>
    intro attempt hsum _ herr
    obtain ⟨m0, hm0⟩ := herr attempt le_rfl (by omega)
    simp only [callLLMGo, hm0]
    by_cases hrate : isRateLimited m0 = true
    · rw [if_pos hrate]
      rcases Nat.eq_zero_or_pos r with hr | hr
      · subst hr
        have ha : attempt = maxRetries - 1 := by omega
        rw [ha] at hm0
        rw [hlast] at hm0
        cases hm0
        simp only [callLLMGo]
        rw [if_pos hrate]
      · exact ih (attempt + 1) (by omega) hr (fun i hi h2 => herr i (by omega) h2)
    · rw [if_neg hrate]
      by_cases hlt : attempt < maxRetries - 1
      · rw [if_pos hlt]
        have hr : 0 < r := by omega
        exact ih (attempt + 1) (by omega) hr (fun i hi h2 => herr i (by omega) h2)
      · rw [if_neg hlt]
        have ha : attempt = maxRetries - 1 := by omega
        rw [ha] at hm0
        rw [hlast] at hm0
        cases hm0
        rw [if_neg hrate]

theorem listStartsWith_ERROR (s : String) :
    listStartsWith "ERROR".data ("ERROR: " ++ s).data = true := by
  have h : ("ERROR: " ++ s).data =
      'E' :: 'R' :: 'R' :: 'O' :: 'R' :: ':' :: ' ' :: s.data := by
    rw [String.data_append]
    rfl
  rw [h]
  simp [listStartsWith]

/-- Claim C8 (amended): `call_llm` never raises; when all maxRetries
attempts fail it returns a failure-marker string starting with "ERROR",
which carries the message of the last error when that error is not
rate-limit-shaped, and is the generic "ERROR: Max retries exceeded" when the
last error is rate-limit-shaped (the rate-limit branch sleeps and re-enters
the loop even on the final attempt, discarding the message). -/
theorem call_llm_exhaustion_result (outcomes : Nat → Attempt) (maxRetries : Nat)
    (hpos : 0 < maxRetries) (m : String)
    (hlast : outcomes (maxRetries - 1) = .err m)
    (herr : ∀ i, i < maxRetries → ∃ mm, outcomes i = .err mm) :
    (callLLM outcomes maxRetries).result =
      (if isRateLimited m then exhaustedMarker else "ERROR: " ++ m) ∧
    listStartsWith "ERROR".data (callLLM outcomes maxRetries).result.data = true := by
  have h := callLLMGo_all_err outcomes maxRetries m hlast maxRetries 0 (by omega) hpos
    (fun i _ h2 => herr i h2)
  rw [callLLM]
  refine ⟨h, ?_⟩
  rw [h]
  by_cases hrate : isRateLimited m = true
  · rw [if_pos hrate]
    decide
  · rw [if_neg hrate]
    exact listStartsWith_ERROR m

/-- Witness for the amended C8 theorem: three failing attempts whose last
error is not rate-limit-shaped. -/
theorem call_llm_exhaustion_result_witness :
    (callLLM (fun i => if i = 2 then .err "boom" else .err "rate limited") 3).result =
      (if isRateLimited "boom" then exhaustedMarker else "ERROR: " ++ "boom") ∧
    listStartsWith "ERROR".data
      (callLLM (fun i => if i = 2 then .err "boom" else .err "rate limited") 3).result.data = true :=
  call_llm_exhaustion_result _ 3 (by omega) "boom" (by decide)
    (fun i _ => by
      by_cases h : i = 2
      · exact ⟨"boom", by simp [h]⟩
      · exact ⟨"rate limited", by simp [h]⟩)

/-- Claim C1: `extract_json_from_response` is modelled by the total function
`extractJson` (every input reaches a result — the source catches the only
fallible step, the strict JSON parse), and on an empty input or one starting
with the failure-marker prefix "ERROR" it returns the all-absent result
`{}`. -/
theorem extract_error_or_empty (s : List Char)
    (h : s = [] ∨ listStartsWith errorMarker s = true) :
    extractJson s = JsonVal.jobj [] := by
  unfold extractJson
  rw [if_pos h]

/-- Witness for C1 at a concrete failure marker. -/
theorem extract_error_or_empty_witness :
    extractJson ("ERROR: connection reset").data = JsonVal.jobj [] :=
  extract_error_or_empty _ (Or.inr (by decide))

/-- Claim C5, counterexample: on the primary parse path the source returns
the parsed dict unchanged (`return data`), so for the response
`{"predicted_stars": "five", "mystery": 7}` the unrecognized key "mystery"
is present in the result and the wrongly-typed recognized field
`predicted_stars` is present with its string value rather than absent. -/
theorem extract_passthrough_cex :
    jsonGet (extractJson ("\x7b\"predicted_stars\": \"five\", \"mystery\": 7\x7d").data)
        "mystery" = some (JsonVal.jint 7) ∧
    jsonGet (extractJson ("\x7b\"predicted_stars\": \"five\", \"mystery\": 7\x7d").data)
        "predicted_stars" = some (JsonVal.jstr "five") := by
  constructor
  · rfl
  · rfl

/-- Claim C5 (amended): on the primary parse path — input not empty and not
ERROR-prefixed, brace bounds found, and the brace-delimited slice parsing as
strict JSON — `extract` returns the parsed value as-is: unrecognized keys
and wrongly-typed recognized fields are passed through unchanged (they are
ignored only by downstream consumers, which read just the five recognized
keys), and no failure occurs. -/
theorem extract_primary_passthrough (s : List Char) (v : JsonVal)
    (hne : ¬(s = [] ∨ listStartsWith errorMarker s = true))
    (hb : ¬(pyFind (processedText s) '{' = -1 ∨
      pyRFind (processedText s) '}' + 1 ≤ pyFind (processedText s) '{'))
    (hp : jsonParse (extractSlice (processedText s)) = some v) :
    extractJson s = v := by
  unfold extractJson
  rw [if_neg hne]
  simp only []
  rw [if_neg hb, hp]

/-- Witness for the amended C5 theorem on a concrete wrapped response. -/
theorem extract_primary_passthrough_witness :
    extractJson ("ok \x7b\"a\": 1\x7d done").data = JsonVal.jobj [("a", JsonVal.jint 1)] :=
  extract_primary_passthrough _ _ (by decide) (by decide) rfl

/-- Claim C6, counterexample: for the fenced response
<pre>```json\n{"summary": "x``````y"}\n```</pre> the wrapping contains no
braces and the text between the first and last brace is valid JSON, but the
`replace` call on line 112 deletes the six-backquote run inside the JSON
string, so `extract` returns "xy" for the summary instead of the original
"x``````y". -/
theorem extract_fence_corruption_cex :
    ("```json\n\x7b\"summary\": \"x``````y\"\x7d\n```" : String) =
      "```json\n" ++ "\x7b\"summary\": \"x``````y\"\x7d" ++ "\n```" ∧
    braceFree ("```json\n").data = true ∧
    braceFree ("\n```").data = true ∧
    jsonParse ("\x7b\"summary\": \"x``````y\"\x7d").data =
      some (JsonVal.jobj [("summary", JsonVal.jstr "x``````y")]) ∧
    extractJson ("```json\n\x7b\"summary\": \"x``````y\"\x7d\n```").data =
      JsonVal.jobj [("summary", JsonVal.jstr "xy")] ∧
    ("xy" : String) ≠ "x``````y" :=
  ⟨by decide, by decide, by decide, rfl, rfl, by decide⟩

/-- Claim C9: when extraction produced a prediction record without
`predicted_stars`, `submit_review` surfaces an error response (the
`KeyError` is caught and turned into the HTTP-500 detail) instead of a
success payload with a defaulted or synthesized rating. -/
theorem submit_missing_rating_errors (fs : List (String × JsonVal))
    (nr : NormResult) (sid : String)
    (h : dictGet fs "predicted_stars" = none) :
    submitReview (.jobj fs) nr sid =
      .error "Error processing submission: 'predicted_stars'" := by
  simp only [submitReview, h]

/-- Witness for C9 at the empty prediction record. -/
theorem submit_missing_rating_errors_witness :
    submitReview (.jobj []) ⟨"sum", [], "Mixed"⟩ "id1" =
      .error "Error processing submission: 'predicted_stars'" :=
  submit_missing_rating_errors [] ⟨"sum", [], "Mixed"⟩ "id1" rfl

/-- Claim C10: on an empty submission store `get_analytics` returns the
fully-populated zero record — total 0, averages and accuracy 0, empty
distributions — via the guarded short-circuit, so the accuracy division by
the store size is never performed on an empty store. -/
theorem analytics_empty_store :
    getAnalytics [] = ⟨0, 0, 0, 0, [], []⟩ := rfl

theorem listStartsWith_iff_take (p : List Char) :
    ∀ s : List Char, listStartsWith p s = true ↔ s.take p.length = p := by
  induction p with
  | nil => intro s; simp [listStartsWith]
  | cons a p ih =>
    intro s
    cases s with
    | nil => simp [listStartsWith]
    | cons b s =>
      simp only [listStartsWith, List.length_cons, List.take_succ_cons,
        Bool.and_eq_true, decide_eq_true_eq, ih]
      constructor
      · rintro ⟨rfl, h⟩; rw [h]
      · intro h
        injection h with h1 h2
        exact ⟨h1.symm, h2⟩

theorem startsWith_false_of_short (p s : List Char) (h : s.length < p.length) :
    listStartsWith p s = false := by
  cases hb : listStartsWith p s
  · rfl
  · exfalso
    rw [listStartsWith_iff_take] at hb
    have := congrArg List.length hb
    simp [List.length_take] at this
    omega

theorem fenceRun_all_backquote : ∀ c ∈ fenceRun, c = backquote := by
  intro c hc
  simp [fenceRun] at hc
  exact hc

theorem hasSub_of_startsWith (p s : List Char) (h : listStartsWith p s = true) :
    hasSub p s = true := by
  cases s with
  | nil => simpa [hasSub] using h
  | cons c cs => simp [hasSub, h]

theorem hasSub_cons_false (p : List Char) (c : Char) (cs : List Char)
    (h : hasSub p (c :: cs) = false) :
    listStartsWith p (c :: cs) = false ∧ hasSub p cs = false := by
  simpa [hasSub] using h

theorem take_fence_mem {s : List Char} {c : Char}
    (hs : listStartsWith fenceRun s = true) (hc : c ∈ s.take 6) : c = backquote := by
  rw [listStartsWith_iff_take] at hs
  have hfl : fenceRun.length = 6 := rfl
  rw [hfl] at hs
  exact fenceRun_all_backquote c (hs ▸ hc)

theorem startsWith_fence_append (pre x : List Char) (hx : x.head? = some '{') :
    listStartsWith fenceRun (pre ++ x) = listStartsWith fenceRun pre := by
  obtain ⟨x', rfl⟩ : ∃ x', x = '{' :: x' := by
    cases x with
    | nil => simp at hx
    | cons c x' =>
      obtain rfl : c = '{' := by simpa using hx
      exact ⟨x', rfl⟩
  by_cases h6 : 6 ≤ pre.length
  · have ht : (pre ++ ('{' :: x')).take 6 = pre.take 6 := by
      rw [List.take_append_eq_append_take]
      have h0 : 6 - pre.length = 0 := by omega
      rw [h0]
      simp
    have h1 := listStartsWith_iff_take fenceRun (pre ++ ('{' :: x'))
    have h2 := listStartsWith_iff_take fenceRun pre
    have hfl : fenceRun.length = 6 := rfl
    rw [hfl] at h1 h2
    rw [Bool.eq_iff_iff, h1, h2, ht]
  · rw [startsWith_false_of_short fenceRun pre (by simp [fenceRun]; omega)]
    cases hb : listStartsWith fenceRun (pre ++ ('{' :: x'))
    · rfl
    · exfalso
      have hmem : '{' ∈ (pre ++ ('{' :: x')).take 6 := by
        rw [List.take_append_eq_append_take]
        obtain ⟨k, hk⟩ : ∃ k, 6 - pre.length = k + 1 := ⟨5 - pre.length, by omega⟩
        rw [hk]
        simp
      exact absurd (take_fence_mem hb hmem) (by decide)

theorem startsWith_fence_j_append (j post : List Char)
    (hnf : hasSub fenceRun j = false) (hlast : j.getLast? = some '}') :
    listStartsWith fenceRun (j ++ post) = false := by
  have hjne : j ≠ [] := by intro h; subst h; simp at hlast
  have hmemj : '}' ∈ j := by
    have hm : '}' ∈ j.getLast? := by rw [hlast]; rfl
    obtain ⟨h', heq⟩ := List.mem_getLast?_eq_getLast hm
    rw [heq]
    exact List.getLast_mem h'
  by_cases h6 : 6 ≤ j.length
  · cases hb : listStartsWith fenceRun (j ++ post)
    · rfl
    · exfalso
      rw [listStartsWith_iff_take] at hb
      have hj : listStartsWith fenceRun j = true := by
        rw [listStartsWith_iff_take]
        have hfl : fenceRun.length = 6 := rfl
        rw [hfl] at hb ⊢
        rw [List.take_append_eq_append_take] at hb
        have h0 : 6 - j.length = 0 := by omega
        rw [h0] at hb
        simpa using hb
      have := hasSub_of_startsWith _ _ hj
      rw [hnf] at this
      exact Bool.false_ne_true this
  · cases hb : listStartsWith fenceRun (j ++ post)
    · rfl
    · exfalso
      have hmem : '}' ∈ (j ++ post).take 6 := by
        rw [List.take_append_eq_append_take, List.take_of_length_le (by omega)]
        exact List.mem_append.mpr (Or.inl hmemj)
      exact absurd (take_fence_mem hb hmem) (by decide)

theorem removeFences_cons (c : Char) (cs : List Char) :
    removeFences (c :: cs) =
      if listStartsWith fenceRun (c :: cs) = true then removeFences (cs.drop 5)
      else c :: removeFences cs := by
  by_cases h6 : 6 ≤ (c :: cs).length
  · rcases cs with _ | ⟨c1, _ | ⟨c2, _ | ⟨c3, _ | ⟨c4, _ | ⟨c5, rest⟩⟩⟩⟩⟩ <;>
      simp only [List.length_cons, List.length_nil] at h6
    · omega
    · omega
    · omega
    · omega
    · omega
    · rfl
  · rw [if_neg (by
      rw [startsWith_false_of_short fenceRun (c :: cs) (by
        have hfl : fenceRun.length = 6 := rfl
        simp only [List.length_cons] at h6 ⊢
        omega)]
      simp)]
    rcases cs with _ | ⟨c1, _ | ⟨c2, _ | ⟨c3, _ | ⟨c4, _ | ⟨c5, rest⟩⟩⟩⟩⟩
    · rfl
    · rfl
    · rfl
    · rfl
    · rfl
    · exfalso
      apply h6
      simp only [List.length_cons]
      omega

theorem removeFences_sublist_aux : ∀ n (cs : List Char), cs.length ≤ n →
    (removeFences cs).Sublist cs := by
  intro n
  induction n with
  | zero =>
    intro cs h
    have : cs = [] := List.length_eq_zero.mp (by omega)
    subst this
    simp [removeFences]
  | succ n ih =>
    intro cs h
    cases cs with
    | nil => simp [removeFences]
    | cons c cs' =>
      rw [removeFences_cons]
      split
      · exact ((ih (cs'.drop 5) (by
          simp only [List.length_drop]
          simp only [List.length_cons] at h
          omega)).trans (List.drop_sublist 5 cs')).trans (List.sublist_cons_self c cs')
      · exact (ih cs' (by simp only [List.length_cons] at h; omega)).cons₂ c

theorem removeFences_sublist (cs : List Char) : (removeFences cs).Sublist cs :=
  removeFences_sublist_aux cs.length cs le_rfl

theorem braceFree_of_sublist (l l' : List Char) (hsub : l'.Sublist l)
    (hb : braceFree l = true) : braceFree l' = true := by
  rw [braceFree, List.all_eq_true] at *
  exact fun c hc => hb c (hsub.subset hc)

theorem braceFree_spec (A : List Char) (hb : braceFree A = true) :
    ∀ x ∈ A, x ≠ '{' ∧ x ≠ '}' := by
  rw [braceFree, List.all_eq_true] at hb
  intro x hx
  have hone := hb x hx
  simp only [Bool.not_eq_true', Bool.or_eq_false_iff, beq_eq_false_iff_ne] at hone
  exact hone

theorem removeFences_append_right (post : List Char) :
    ∀ j : List Char, hasSub fenceRun j = false → j.getLast? = some '}' →
      removeFences (j ++ post) = j ++ removeFences post := by
  intro j
  induction j with
  | nil => intro _ hlast; simp at hlast
  | cons a j' ih =>
    intro hnf hlast
    have hsw : listStartsWith fenceRun ((a :: j') ++ post) = false :=
      startsWith_fence_j_append (a :: j') post hnf hlast
    rw [List.cons_append] at hsw
    rw [List.cons_append, removeFences_cons, hsw]
    simp only [Bool.false_eq_true, if_false]
    rcases eq_or_ne j' [] with rfl | hne
    · simp
    · have hlast' : j'.getLast? = some '}' := by
        cases j' with
        | nil => exact absurd rfl hne
        | cons b j'' => rw [List.getLast?_cons_cons] at hlast; exact hlast
      have hnf' : hasSub fenceRun j' = false := (hasSub_cons_false _ _ _ hnf).2
      rw [ih hnf' hlast']
      simp

theorem removeFences_append_left_aux (x : List Char) (hx : x.head? = some '{') :
    ∀ n (pre : List Char), pre.length ≤ n →
      removeFences (pre ++ x) = removeFences pre ++ removeFences x := by
  intro n
  induction n with
  | zero =>
    intro pre h
    have : pre = [] := List.length_eq_zero.mp (by omega)
    subst this
    simp [removeFences]
  | succ n ih =>
    intro pre hlen
    cases pre with
    | nil => simp [removeFences]
    | cons a pre' =>
      rw [List.cons_append, removeFences_cons, removeFences_cons a pre']
      have hcond : listStartsWith fenceRun (a :: (pre' ++ x)) =
          listStartsWith fenceRun (a :: pre') := by
        rw [← List.cons_append]
        exact startsWith_fence_append (a :: pre') x hx
      rw [hcond]
      split
      · rename_i hc
        have h6 : 6 ≤ (a :: pre').length := by
          by_contra hlt
          rw [startsWith_false_of_short fenceRun (a :: pre') (by
            have hfl : fenceRun.length = 6 := rfl
            simp only [List.length_cons] at hlt ⊢
            omega)] at hc
          exact Bool.false_ne_true hc
        have hp5 : 5 ≤ pre'.length := by
          simp only [List.length_cons] at h6
          omega
        rw [List.drop_append_eq_append_drop]
        have h0 : 5 - pre'.length = 0 := by omega
        rw [h0, List.drop_zero]
        exact ih (pre'.drop 5) (by
          simp only [List.length_drop]
          simp only [List.length_cons] at hlen
          omega)
      · rw [ih pre' (by simp only [List.length_cons] at hlen; omega)]
        simp

theorem removeFences_append_left (pre x : List Char) (hx : x.head? = some '{') :
    removeFences (pre ++ x) = removeFences pre ++ removeFences x :=
  removeFences_append_left_aux x hx pre.length pre le_rfl

theorem dropWhile_append_of_head (p : Char → Bool) (A X : List Char) (c : Char)
    (hX : X.head? = some c) (hc : p c = false) :
    List.dropWhile p (A ++ X) = List.dropWhile p A ++ X := by
  obtain ⟨X', rfl⟩ : ∃ X', X = c :: X' := by
    cases X with
    | nil => simp at hX
    | cons d X' =>
      obtain rfl : d = c := by simpa using hX
      exact ⟨X', rfl⟩
  induction A with
  | nil => simp [List.dropWhile_cons, hc]
  | cons a A ih =>
    rw [List.cons_append, List.dropWhile_cons, List.dropWhile_cons]
    cases hpa : p a
    · simp
    · simpa using ih

theorem rdropWhile_append_of_getLast (p : Char → Bool) (X B : List Char) (c : Char)
    (hX : X.getLast? = some c) (hc : p c = false) :
    List.rdropWhile p (X ++ B) = X ++ List.rdropWhile p B := by
  unfold List.rdropWhile
  rw [List.reverse_append]
  rw [dropWhile_append_of_head p B.reverse X.reverse c
    (by rw [List.head?_reverse]; exact hX) hc]
  rw [List.reverse_append, List.reverse_reverse]

theorem rdropWhile_sublist (p : Char → Bool) (l : List Char) :
    (List.rdropWhile p l).Sublist l := by
  unfold List.rdropWhile
  have h := (@List.dropWhile_suffix Char l.reverse p).sublist.reverse
  rwa [List.reverse_reverse] at h

theorem findIdx_sandwich (c : Char) (X : List Char) (hX : X.head? = some c) :
    ∀ (A : List Char) (i : Nat), (∀ x ∈ A, x ≠ c) →
      List.findIdx? (fun x => x = c) (A ++ X) i = some (i + A.length) := by
  obtain ⟨X', rfl⟩ : ∃ X', X = c :: X' := by
    cases X with
    | nil => simp at hX
    | cons d X' =>
      obtain rfl : d = c := by simpa using hX
      exact ⟨X', rfl⟩
  intro A
  induction A with
  | nil =>
    intro i _
    simp [List.findIdx?_cons]
  | cons a A ih =>
    intro i hA
    have ha : a ≠ c := hA a (by simp)
    rw [List.cons_append, List.findIdx?_cons, if_neg (by simp [ha])]
    rw [ih (i + 1) (fun x hx => hA x (by simp [hx]))]
    congr 1
    simp only [List.length_cons]
    omega

theorem pyFind_sandwich (A j B : List Char) (hA : ∀ x ∈ A, x ≠ '{')
    (hj : j.head? = some '{') :
    pyFind (A ++ (j ++ B)) '{' = (A.length : Int) := by
  have hjB : (j ++ B).head? = some '{' := by
    cases j with
    | nil => simp at hj
    | cons a j' => simpa using hj
  unfold pyFind
  rw [findIdx_sandwich '{' (j ++ B) hjB A 0 hA]
  simp

theorem pyRFind_sandwich (A j B : List Char) (hB : ∀ x ∈ B, x ≠ '}')
    (hj : j.getLast? = some '}') :
    pyRFind (A ++ (j ++ B)) '}' = (A.length : Int) + j.length - 1 := by
  have hjrev : j.reverse.head? = some '}' := by rw [List.head?_reverse]; exact hj
  have hjA : (j.reverse ++ A.reverse).head? = some '}' := by
    cases hr : j.reverse with
    | nil => rw [hr] at hjrev; simp at hjrev
    | cons d t =>
      rw [hr] at hjrev
      obtain rfl : d = '}' := by simpa using hjrev
      simp
  unfold pyRFind
  rw [List.reverse_append, List.reverse_append, List.append_assoc]
  rw [findIdx_sandwich '}' (j.reverse ++ A.reverse) hjA B.reverse 0
    (fun x hx => hB x (List.mem_reverse.mp hx))]
  simp only [List.length_append, List.length_reverse, Nat.zero_add]
  push_cast
  ring

/-- Claim C6 (amended): for every model output of the form
`pre ++ j ++ post` where the wrapping `pre`/`post` (code fences or prose)
contains no brace characters, `j` is a brace-delimited text that parses as
strict JSON, the whole text does not begin with the failure-marker prefix
"ERROR" (otherwise the marker guard intercepts it), and `j` contains no run
of six consecutive backquotes (which the `replace` call on line 112 would
delete, corrupting the JSON), `extract` recovers exactly the JSON value
located between the first `{` and the last `}` of the text. -/
theorem extract_wrapped_recovers (pre j post : List Char) (v : JsonVal)
    (hne : ¬(pre ++ (j ++ post) = [] ∨
      listStartsWith errorMarker (pre ++ (j ++ post)) = true))
    (hpre : braceFree pre = true) (hpost : braceFree post = true)
    (hhead : j.head? = some '{') (hlast : j.getLast? = some '}')
    (hnf : hasSub fenceRun j = false)
    (hp : jsonParse j = some v) :
    extractJson (pre ++ (j ++ post)) = v := by
  have hjne : j ≠ [] := by intro h; subst h; simp at hhead
  have hjlen : 1 ≤ j.length := by
    cases j with
    | nil => simp at hhead
    | cons a j' => simp
  have hhead_jpost : (j ++ post).head? = some '{' := by
    cases j with
    | nil => simp at hhead
    | cons a j' => simpa using hhead
  have h1 : removeFences (pre ++ (j ++ post)) =
      removeFences pre ++ (j ++ removeFences post) := by
    rw [removeFences_append_left pre (j ++ post) hhead_jpost,
        removeFences_append_right post j hnf hlast]
  have hA0brace : braceFree (removeFences pre) = true :=
    braceFree_of_sublist pre _ (removeFences_sublist pre) hpre
  have hP0brace : braceFree (removeFences post) = true :=
    braceFree_of_sublist post _ (removeFences_sublist post) hpost
  have hhead_jP0 : (j ++ removeFences post).head? = some '{' := by
    cases j with
    | nil => simp at hhead
    | cons a j' => simpa using hhead
  have h2 : processedText (pre ++ (j ++ post)) =
      List.dropWhile isPySpace (removeFences pre) ++
        (j ++ List.rdropWhile isPySpace (removeFences post)) := by
    unfold processedText pyStripL
    rw [h1]
    rw [dropWhile_append_of_head isPySpace (removeFences pre)
      (j ++ removeFences post) '{' hhead_jP0 (by decide)]
    rw [← List.append_assoc]
    rw [rdropWhile_append_of_getLast isPySpace
      (List.dropWhile isPySpace (removeFences pre) ++ j) (removeFences post) '}'
      (by rw [List.getLast?_append_of_ne_nil _ hjne]; exact hlast) (by decide)]
    rw [List.append_assoc]
  have hAbrace : braceFree (List.dropWhile isPySpace (removeFences pre)) = true :=
    braceFree_of_sublist _ _ (List.dropWhile_suffix isPySpace).sublist hA0brace
  have hBbrace : braceFree (List.rdropWhile isPySpace (removeFences post)) = true :=
    braceFree_of_sublist _ _ (rdropWhile_sublist isPySpace _) hP0brace
  have hAspec := braceFree_spec _ hAbrace
  have hBspec := braceFree_spec _ hBbrace
  have hfind : pyFind (processedText (pre ++ (j ++ post))) '{' =
      ((List.dropWhile isPySpace (removeFences pre)).length : Int) := by
    rw [h2]
    exact pyFind_sandwich _ j _ (fun x hx => (hAspec x hx).1) hhead
  have hrfind : pyRFind (processedText (pre ++ (j ++ post))) '}' =
      ((List.dropWhile isPySpace (removeFences pre)).length : Int) + j.length - 1 := by
    rw [h2]
    exact pyRFind_sandwich _ j _ (fun x hx => (hBspec x hx).2) hlast
  have hslice : extractSlice (processedText (pre ++ (j ++ post))) = j := by
    unfold extractSlice pySlice
    rw [hfind, hrfind, h2]
    have he : (((List.dropWhile isPySpace (removeFences pre)).length : Int) +
        (j.length : Int) - 1 + 1) =
        (((List.dropWhile isPySpace (removeFences pre)).length + j.length : Nat) : Int) := by
      push_cast
      ring
    rw [he, Int.toNat_natCast, Int.toNat_natCast]
    rw [List.drop_left]
    have ht : (List.dropWhile isPySpace (removeFences pre)).length + j.length -
        (List.dropWhile isPySpace (removeFences pre)).length = j.length := by omega
    rw [ht, List.take_left]
  unfold extractJson
  rw [if_neg hne]
  simp only []
  rw [hfind, hrfind]
  rw [if_neg (by
    push_neg
    constructor
    · omega
    · omega)]
  rw [hslice, hp]

/-- Witness for the amended C6 theorem: a fenced JSON object with trailing
prose. -/
theorem extract_wrapped_recovers_witness :
    extractJson (("```json\n" : String).data ++
      (("\x7b\"a\": 1\x7d" : String).data ++ ("\n``` thanks" : String).data)) =
      JsonVal.jobj [("a", JsonVal.jint 1)] :=
  extract_wrapped_recovers _ _ _ _ (by decide) (by decide) (by decide) (by decide)
    (by decide) (by decide) rfl
